import Mathlib

/-!
Shallow embedding of the broker-statement engine: the data model, the
statement merger, the FIFO trade-matching engine, the tax rule and the
header-keyed delimited-table parser's dispatch state machine, together with
theorems settling the frozen claims about them.

Conventions of the embedding:
* Rust `Decimal` amounts are modelled as exact rationals;
* dates are modelled as natural numbers ordered like calendar dates;
* Rust `Result`/panics become `Except String`/`Option`;
* `HashMap` becomes an association list with key-replacing insert, and
  `HashMap` equality becomes lookup-extensional equality of such lists;
* `Vec` becomes `List` (push appends at the end, pop takes the last element).
-/

/-- A currency-tagged exact amount, mirroring `currency::Cash`. -/
structure Cash where
  currency : String
  amount : ℚ
deriving DecidableEq, Repr

/-- Division of a cash amount by an integer quantity (`Cash / u32` in the source). -/
def Cash.div (c : Cash) (n : ℕ) : Cash :=
  { currency := c.currency, amount := c.amount / n }

/-- Multiplication of a cash amount by an integer quantity (`Cash * u32` in the source). -/
def Cash.mul (c : Cash) (n : ℕ) : Cash :=
  { currency := c.currency, amount := c.amount * n }

/-- A dated cash amount, mirroring `currency::CashAssets`. -/
structure CashAssets where
  date : ℕ
  cash : Cash
deriving DecidableEq, Repr

/-- A multi-currency cash balance: a mapping from currency to amount.
The merger only moves this value around, so the association-list
representation is enough. -/
abbrev MultiCurrencyCashAccount := List (String × ℚ)

/-- A finalized dividend record (`dividends::Dividend`). -/
structure Dividend where
  date : ℕ
  issuer : String
  amount : Cash
  paid_tax : Cash
deriving DecidableEq, Repr

/-- A buy trade / lot (`trades::StockBuy`).  The `sold` field is the lot's
consumed quantity.  Modelled from the spec: "Lot: a buy transaction's
remaining unsold quantity, tracked until fully consumed by matching sells"
(the tracking field itself lives in `trades.rs`, which only this module's
callers show). -/
structure StockBuy where
  symbol : String
  quantity : ℕ
  price : Cash
  commission : Cash
  conclusion_date : ℕ
  execution_date : ℕ
  sold : ℕ
deriving DecidableEq, Repr

/-- Modelled from the spec: a lot is sold out once its unsold quantity is
exhausted (`StockBuy::is_sold`). -/
def StockBuy.is_sold (b : StockBuy) : Bool :=
  b.sold == b.quantity

/-- Modelled from the spec: a lot's remaining unsold quantity
(`StockBuy::get_unsold`). -/
def StockBuy.get_unsold (b : StockBuy) : ℕ :=
  b.quantity - b.sold

/-- Modelled from the spec: consuming a quantity from a lot
(`StockBuy::sell`). -/
def StockBuy.sell (b : StockBuy) (quantity : ℕ) : StockBuy :=
  { b with sold := b.sold + quantity }

/-- A fragment of a sell satisfied by one historical buy lot
(`trades::StockSellSource`). -/
structure StockSellSource where
  quantity : ℕ
  price : Cash
  commission : Cash
  conclusion_date : ℕ
  execution_date : ℕ
deriving DecidableEq, Repr

/-- A sell trade (`trades::StockSell`), carrying its matched sources. -/
structure StockSell where
  symbol : String
  quantity : ℕ
  price : Cash
  commission : Cash
  conclusion_date : ℕ
  execution_date : ℕ
  sources : List StockSellSource
deriving DecidableEq, Repr

/-- Modelled from the spec: a sell is processed once sources are attached
(`StockSell::is_processed`). -/
def StockSell.is_processed (s : StockSell) : Bool :=
  !s.sources.isEmpty

/-- Modelled from the spec: attaching the matched sources to a sell
(`StockSell::process`). -/
def StockSell.process (s : StockSell) (sources : List StockSellSource) : StockSell :=
  { s with sources := sources }

/-- Association-list lookup, standing in for `HashMap::get`. -/
def lookupA {α : Type} : List (String × α) → String → Option α
  | [], _ => none
  | (k, v) :: rest, key => if k = key then some v else lookupA rest key

/-- Association-list insert with replacement, standing in for `HashMap::insert`. -/
def insertA {α : Type} : List (String × α) → String → α → List (String × α)
  | [], key, v => [(key, v)]
  | (k, v') :: rest, key, v =>
    if k = key then (k, v) :: rest else (k, v') :: insertA rest key v

/-- Inserting every entry of the second map into the first
(`HashMap::extend`). -/
def extendA {α : Type} (m : List (String × α)) (entries : List (String × α)) :
    List (String × α) :=
  entries.foldl (fun acc kv => insertA acc kv.1 kv.2) m

/-- One-sided containment of association lists viewed as maps. -/
def mapIncl (m1 m2 : List (String × ℕ)) : Bool :=
  m1.all (fun kv => lookupA m2 kv.1 == some kv.2)

/-- Lookup-extensional equality of association lists viewed as maps: the
stand-in for `HashMap<String, u32>` equality. -/
def mapEq (m1 m2 : List (String × ℕ)) : Bool :=
  mapIncl m1 m2 && mapIncl m2 m1

/-! ## The tax rule (`localities.rs`) -/

/-- Modelled from the spec: `currency::round_to` rounds a decimal to the
given number of decimal places ("round(income × rate)"; "Rounding precision
... parameters of the jurisdiction").  `currency.rs` itself is not among the
provided sources. -/
def round_to (value : ℚ) (points : ℕ) : ℚ :=
  ((round (value * 10 ^ points) : ℤ) : ℚ) / 10 ^ points

/-- A jurisdiction (`localities::Country`). -/
structure Country where
  currency : String
  tax_rate : ℚ
  tax_precision : ℕ

/-- Tax rounding at the jurisdiction's precision (`Country::round_tax`). -/
def Country.round_tax (c : Country) (tax : ℚ) : ℚ :=
  round_to tax c.tax_precision

/-- The tax to pay on an income given an optional already-paid tax
(`Country::tax_to_pay`).  The `assert!(!paid_tax.is_sign_negative())` panic
is modelled as `none`. -/
def Country.tax_to_pay (c : Country) (income : ℚ) (paid_tax : Option ℚ) : Option ℚ :=
  if income < 0 ∨ income = 0 then
    some 0
  else
    let tax_to_pay := c.round_tax (income * c.tax_rate)
    match paid_tax with
    | none => some tax_to_pay
    | some paid =>
      if paid < 0 then none
      else
        let tax_deduction := c.round_tax paid
        if tax_deduction < tax_to_pay then some (tax_to_pay - tax_deduction)
        else some 0

/-- The default jurisdiction (`localities::russia`): 13% rate, ruble precision. -/
def russia : Country :=
  { currency := "RUB", tax_rate := 13 / 100, tax_precision := 0 }

/-! ## Partial and joint broker statements (`broker_statement/mod.rs`) -/

/-- One file's worth of parsed events (`partial::PartialBrokerStatement`),
prior to cross-file validation.  The process-wide tax accumulators are
handled outside the merge loop and are not needed by the claims below. -/
structure PartialBrokerStatement where
  period : Option (ℕ × ℕ)
  starting_assets : Option Bool
  cash_flows : List CashAssets
  cash_assets : MultiCurrencyCashAccount
  stock_buys : List StockBuy
  stock_sells : List StockSell
  dividends : List Dividend
  open_positions : List (String × ℕ)
  instrument_names : List (String × String)
deriving DecidableEq, Repr

/-- Modelled from the spec: the declared period of a partial statement is
optional until parsing completes; reading an unset period is an error
(`PartialBrokerStatement::get_period`, defined in `partial.rs` which is not
among the provided sources). -/
def PartialBrokerStatement.get_period (s : PartialBrokerStatement) : Except String (ℕ × ℕ) :=
  match s.period with
  | some p => .ok p
  | none => .error "Broker statement period is not set"

/-- Modelled from the spec: the optional starting-asset flag of a partial
statement (`PartialBrokerStatement::get_starting_assets`). -/
def PartialBrokerStatement.get_starting_assets (s : PartialBrokerStatement) :
    Except String Bool :=
  match s.starting_assets with
  | some v => .ok v
  | none => .error "Starting assets are not set"

/-- The joint, validated statement (`BrokerStatement`).  The `broker` field
carries external configuration only and is omitted. -/
structure BrokerStatement where
  period : ℕ × ℕ
  cash_flows : List CashAssets
  cash_assets : MultiCurrencyCashAccount
  stock_buys : List StockBuy
  stock_sells : List StockSell
  dividends : List Dividend
  open_positions : List (String × ℕ)
  instrument_names : List (String × String)
deriving DecidableEq, Repr

/-- `BrokerStatement::new_empty_from`: the empty seed statement whose period
collapses to the first statement's start; a declared non-zero starting asset
is an error. -/
def BrokerStatement.new_empty_from (statement : PartialBrokerStatement) :
    Except String BrokerStatement :=
  match statement.get_period with
  | .error e => .error e
  | .ok period0 =>
    match statement.get_starting_assets with
    | .error e => .error e
    | .ok true => .error "Invalid broker statement period: It has a non-zero starting assets"
    | .ok false =>
      .ok { period := (period0.1, period0.1)
            cash_flows := []
            cash_assets := []
            stock_buys := []
            stock_sells := []
            dividends := []
            open_positions := []
            instrument_names := [] }

/-- `BrokerStatement::merge`: require exact period continuity, extend the
period end, append the event lists and replace the point-in-time snapshots
(cash assets, open positions). -/
def BrokerStatement.merge (self : BrokerStatement) (statement : PartialBrokerStatement) :
    Except String BrokerStatement :=
  match statement.get_period with
  | .error e => .error e
  | .ok period =>
    if period.1 ≠ self.period.2 then .error "Non-continuous periods"
    else
      .ok { period := (self.period.1, period.2)
            cash_flows := self.cash_flows ++ statement.cash_flows
            cash_assets := statement.cash_assets
            stock_buys := self.stock_buys ++ statement.stock_buys
            stock_sells := self.stock_sells ++ statement.stock_sells
            dividends := self.dividends ++ statement.dividends
            open_positions := statement.open_positions
            instrument_names := extendA self.instrument_names statement.instrument_names }

/-- The merge loop of `BrokerStatement::new_from` (lines 85-96): merge each
partial statement in order into the growing statement. -/
def mergeAll : BrokerStatement → List PartialBrokerStatement → Except String BrokerStatement
  | s, [] => .ok s
  | s, p :: rest =>
    match s.merge p with
    | .ok s2 => mergeAll s2 rest
    | .error e => .error ("Failed to merge broker statements: " ++ e)

/-- The sort key of `new_from`'s `sort_by` call: the declared period start. -/
def startKey (p : PartialBrokerStatement) : ℕ :=
  (p.period.getD (0, 0)).1

/-- Stable insertion of a partial statement into a list sorted by period
start (the element goes after every earlier element with a key at most its
own, mirroring a stable `sort_by`). -/
def insertByStart (p : PartialBrokerStatement) :
    List PartialBrokerStatement → List PartialBrokerStatement
  | [] => [p]
  | q :: rest =>
    if startKey q ≤ startKey p then q :: insertByStart p rest else p :: q :: rest

/-- The `statements.sort_by(... period start ...)` step of `new_from`,
modelled as a stable insertion sort. -/
def sortStatements (l : List PartialBrokerStatement) : List PartialBrokerStatement :=
  l.foldl (fun acc p => insertByStart p acc) []

/-- The merge phase of `BrokerStatement::new_from` (lines 78-96): sort the
partial statements by period start, seed an empty statement from the first
(which must declare zero starting assets) and merge every statement in
order.  The tax backfill, date-range validation and trade matching that
follow in `new_from` do not affect the merged period or event lists. -/
def new_from_core (statements : List PartialBrokerStatement) : Except String BrokerStatement :=
  match sortStatements statements with
  | [] => .error "No broker statements"
  | first :: rest =>
    match BrokerStatement.new_empty_from first with
    | .error e => .error e
    | .ok seed => mergeAll seed (first :: rest)

/-- Whether a list of partial statements is a contiguous chain of declared
periods starting at the given date. -/
def contiguousFrom : ℕ → List PartialBrokerStatement → Bool
  | _, [] => true
  | d, p :: rest =>
    match p.period with
    | none => false
    | some per => per.1 == d && contiguousFrom per.2 rest

/-- The period end reached after walking a chain of partial statements. -/
def lastEnd : ℕ → List PartialBrokerStatement → ℕ
  | d, [] => d
  | _, p :: rest => lastEnd (p.period.getD (0, 0)).2 rest

/-! ## Trade ordering (`order_stock_buys` / `order_stock_sells`) -/

/-- The lexicographic order on (conclusion date, execution date) sort keys. -/
abbrev tradeKeyLe (a b : ℕ × ℕ) : Prop :=
  a.1 < b.1 ∨ (a.1 = b.1 ∧ a.2 ≤ b.2)

/-- The (conclusion date, execution date) sort key of a buy trade. -/
def buyKey (b : StockBuy) : ℕ × ℕ :=
  (b.conclusion_date, b.execution_date)

/-- The (conclusion date, execution date) sort key of a sell trade. -/
def sellKey (s : StockSell) : ℕ × ℕ :=
  (s.conclusion_date, s.execution_date)

/-- Stable insertion of a buy trade into a list sorted by `buyKey`. -/
def insertBuy (b : StockBuy) : List StockBuy → List StockBuy
  | [] => [b]
  | x :: rest =>
    if tradeKeyLe (buyKey x) (buyKey b) then x :: insertBuy b rest else b :: x :: rest

/-- The `sort_by_key` call of `order_stock_buys`, modelled as a stable
insertion sort. -/
def sortStockBuys (l : List StockBuy) : List StockBuy :=
  l.foldl (fun acc b => insertBuy b acc) []

/-- Stable insertion of a sell trade into a list sorted by `sellKey`. -/
def insertSell (s : StockSell) : List StockSell → List StockSell
  | [] => [s]
  | x :: rest =>
    if tradeKeyLe (sellKey x) (sellKey s) then x :: insertSell s rest else s :: x :: rest

/-- The `sort_by_key` call of `order_stock_sells`, modelled as a stable
insertion sort. -/
def sortStockSells (l : List StockSell) : List StockSell :=
  l.foldl (fun acc s => insertSell s acc) []

/-- The execution-date check of `order_stock_buys`/`order_stock_sells`:
every execution date must be at least the previous one. -/
def execNonDecreasing : List ℕ → Bool
  | [] => true
  | [_] => true
  | a :: b :: rest => decide (a ≤ b) && execNonDecreasing (b :: rest)

/-- `BrokerStatement::order_stock_buys`: sort by (conclusion date, execution
date), then fail if the execution dates are not non-decreasing. -/
def order_stock_buys (stock_buys : List StockBuy) : Except String (List StockBuy) :=
  let sorted := sortStockBuys stock_buys
  if execNonDecreasing (sorted.map (fun b => b.execution_date)) then .ok sorted
  else .error "Got an unexpected execution order for buy trades"

/-- `BrokerStatement::order_stock_sells`: sort by (conclusion date,
execution date), then fail if the execution dates are not non-decreasing. -/
def order_stock_sells (stock_sells : List StockSell) : Except String (List StockSell) :=
  let sorted := sortStockSells stock_sells
  if execNonDecreasing (sorted.map (fun s => s.execution_date)) then .ok sorted
  else .error "Got an unexpected execution order for sell trades"

/-! ## The FIFO trade matching engine (`process_trades`) -/

/-- The error raised when a sell has no open lots to draw from; both failure
sites of `process_trades` use this text, with the sell's symbol inside. -/
def noPositionsError (symbol : String) : String :=
  "Error while processing " ++ symbol ++ " position closing: There are no open positions for it"

/-- The `StockSellSource` recorded by `process_trades` (lines 241-248): the
consumed quantity, the lot's price, the commission
`lot.commission / lot.quantity * consumed`, and the lot's dates. -/
def mkSellSource (stock_buy : StockBuy) (sell_quantity : ℕ) : StockSellSource :=
  { quantity := sell_quantity
    price := stock_buy.price
    commission := (stock_buy.commission.div stock_buy.quantity).mul sell_quantity
    conclusion_date := stock_buy.conclusion_date
    execution_date := stock_buy.execution_date }

/-- The source record exactly as the spec words it: quantity `consumed`, the
lot's price, and a commission prorated by
`lot.commission × (consumed / lot.total_quantity)`. -/
def specSource (lot : StockBuy) (consumed : ℕ) : StockSellSource :=
  { quantity := consumed
    price := lot.price
    commission := { currency := lot.commission.currency
                    amount := lot.commission.amount * ((consumed : ℚ) / (lot.quantity : ℚ)) }
    conclusion_date := lot.conclusion_date
    execution_date := lot.execution_date }

/-- The per-sell matching loop of `process_trades` (lines 232-258): while
sell quantity remains, pop the last lot of the symbol's queue (the oldest
still-open lot), consume `min(remaining, unsold)` from it, record a source
with the lot's price and prorated commission, and either retire the lot
(fully sold) or push it back.  Returns the recorded sources, the retired
lots and the queue that remains. -/
def matchSell (symbol : String) (remaining : ℕ) (queue : List StockBuy) :
    Except String (List StockSellSource × List StockBuy × List StockBuy) :=
  if remaining = 0 then .ok ([], [], queue)
  else
    match queue.getLast? with
    | none => .error (noPositionsError symbol)
    | some stock_buy =>
      let rest := queue.dropLast
      let sell_quantity := min remaining stock_buy.get_unsold
      if sell_quantity = 0 then .error "Assertion failed: sell_quantity > 0"
      else
        let source := mkSellSource stock_buy sell_quantity
        let consumed := stock_buy.sell sell_quantity
        if consumed.is_sold then
          match matchSell symbol (remaining - sell_quantity) rest with
          | .ok (sources, closed, queue2) => .ok (source :: sources, consumed :: closed, queue2)
          | .error e => .error e
        else
          match matchSell symbol (remaining - sell_quantity) (rest ++ [consumed]) with
          | .ok (sources, closed, queue2) => .ok (source :: sources, closed, queue2)
          | .error e => .error e
termination_by remaining
decreasing_by all_goals omega

/-- The FIFO matching rule exactly as the spec words it, for comparison with
`matchSell`: "repeatedly take the oldest still-open buy lot for that symbol;
consume `min(remaining sell quantity, lot's unsold quantity)` from it,
recording a StockSellSource with that lot's price and a commission prorated
by `lot.commission × (consumed / lot.total_quantity)`; mark the lot sold-out
if fully consumed".  The lot list is ordered oldest first; an exhausted or
stuck queue yields `none`. -/
def fifoSpec (remaining : ℕ) (lots : List StockBuy) : Option (List StockSellSource) :=
  if remaining = 0 then some []
  else
    match lots with
    | [] => none
    | lot :: rest =>
      let consumed := min remaining lot.get_unsold
      if consumed = 0 then none
      else
        let source := specSource lot consumed
        let lots2 := if consumed = lot.get_unsold then rest else lot.sell consumed :: rest
        Option.map (fun sources => source :: sources) (fifoSpec (remaining - consumed) lots2)
termination_by remaining
decreasing_by all_goals omega

/-- Per-symbol queues of still-open lots, keyed by symbol. -/
abbrev BuyQueues := List (String × List StockBuy)

/-- The partition loop of `process_trades` (lines 202-217), tail-recursive
over the reversed buy list. -/
def partitionBuysGo : List StockBuy → List StockBuy → BuyQueues →
    List StockBuy × BuyQueues
  | [], acc, m => (acc, m)
  | b :: rest, acc, m =>
    if b.is_sold then partitionBuysGo rest (acc ++ [b]) m
    else
      let symbol_buys := (lookupA m b.symbol).getD []
      partitionBuysGo rest acc (insertA m b.symbol (symbol_buys ++ [b]))

/-- Partitioning of the buy list into per-symbol FIFO queues
(`process_trades`, first loop): the buy list is iterated in reverse, sold
lots go straight to the rebuilt list and open lots are pushed onto their
symbol's queue, so each queue holds newest lots first and pop-from-end
yields the oldest. -/
def partitionBuys (stock_buys : List StockBuy) : List StockBuy × BuyQueues :=
  partitionBuysGo stock_buys.reverse [] []

/-- The per-sell loop of `process_trades` (lines 219-261): skip already
processed sells, look up the symbol's queue (no queue means no open
positions), match the sell and attach its sources.  Returns the updated
sell list, the remaining queues and the lots fully consumed while
processing. -/
def processSells : BuyQueues → List StockSell →
    Except String (List StockSell × BuyQueues × List StockBuy)
  | m, [] => .ok ([], m, [])
  | m, sell :: rest =>
    if sell.is_processed then
      match processSells m rest with
      | .ok (sells, m2, closed) => .ok (sell :: sells, m2, closed)
      | .error e => .error e
    else
      match lookupA m sell.symbol with
      | none => .error (noPositionsError sell.symbol)
      | some symbol_buys =>
        match matchSell sell.symbol sell.quantity symbol_buys with
        | .error e => .error e
        | .ok (sources, closedHere, queue2) =>
          match processSells (insertA m sell.symbol queue2) rest with
          | .ok (sells, m2, closed) =>
            .ok (sell.process sources :: sells, m2, closedHere ++ closed)
          | .error e => .error e

/-- Draining of the remaining queues back into the buy list
(`process_trades`, lines 263-265).  `HashMap` iteration order is
unspecified in the source; the facts proved below are independent of it. -/
def drainMap : BuyQueues → List StockBuy
  | [] => []
  | (_, q) :: rest => q ++ drainMap rest

/-- The recomputation loop of `validate_open_positions` (lines 388-402):
aggregate the unsold quantities of still-open lots by symbol. -/
def calcOpenPositions (stock_buys : List StockBuy) : List (String × ℕ) :=
  stock_buys.foldl
    (fun m b =>
      if b.is_sold then m
      else
        match lookupA m b.symbol with
        | some position => insertA m b.symbol (position + b.get_unsold)
        | none => insertA m b.symbol b.get_unsold)
    []

/-- `BrokerStatement::validate_open_positions`: the recomputed aggregate
must equal the declared open-position map exactly. -/
def validate_open_positions (s : BrokerStatement) : Except String Unit :=
  if mapEq (calcOpenPositions s.stock_buys) s.open_positions then .ok ()
  else .error "The calculated open positions don't match declared ones in the statement"

/-- The lot-matching phase of `process_trades` (lines 198-266): partition
the buys into per-symbol queues, satisfy every unmatched sell from them and
reassemble the buy list (already-sold lots, lots fully consumed now, then
the still-open queues). -/
def matchPhase (s : BrokerStatement) : Except String (List StockSell × List StockBuy) :=
  let parts := partitionBuys s.stock_buys
  match processSells parts.2 s.stock_sells with
  | .error e => .error e
  | .ok (sells, m2, closed) => .ok (sells, parts.1 ++ closed ++ drainMap m2)

/-- `BrokerStatement::process_trades`: lot matching, the
`assert_eq!(stock_buys.len(), stock_buys_num)` reassembly check (the panic
is modelled as an error), re-ordering of the rebuilt buy list and
open-position validation. -/
def process_trades (s : BrokerStatement) : Except String BrokerStatement :=
  match matchPhase s with
  | .error e => .error e
  | .ok (sells, buys) =>
    if buys.length ≠ s.stock_buys.length then
      .error "Assertion failed: stock_buys.len() == stock_buys_num"
    else
      match order_stock_buys buys with
      | .error e => .error e
      | .ok buys2 =>
        let s2 := { s with stock_buys := buys2, stock_sells := sells }
        match validate_open_positions s2 with
        | .error e => .error e
        | .ok _ => .ok s2

/-- Total unsold quantity held in open lots of one symbol. -/
def totalUnsoldFor (stock_buys : List StockBuy) (symbol : String) : ℕ :=
  ((stock_buys.filter (fun b => !b.is_sold && b.symbol == symbol)).map StockBuy.get_unsold).sum

/-- Total unsold quantity of a lot queue. -/
def sumUnsold (queue : List StockBuy) : ℕ :=
  (queue.map StockBuy.get_unsold).sum

/-- Total number of lots held across all queues. -/
def mapSize (m : BuyQueues) : ℕ :=
  (m.map (fun kv => kv.2.length)).sum

/-- The (conclusion date, execution date) key of a recorded sell source. -/
def sourceKey (s : StockSellSource) : ℕ × ℕ :=
  (s.conclusion_date, s.execution_date)

/-! ## The header-keyed delimited-table parser (`broker_statement/ib/mod.rs`) -/

/-- A section schema declared by a header row (`common::RecordSpec`): the
section name and the column names after the two leading fields. -/
structure RecordSpec where
  name : String
  fields : List String
deriving DecidableEq, Repr

/-- The per-section handler interface (`common::RecordParser`): declared
data-row kinds, kinds to skip, whether "Total" rows are skipped, and the
row handler itself. -/
structure RecordParserSpec where
  data_types : Option (List String)
  skip_data_types : Option (List String)
  skip_totals : Bool
  parseRow : RecordSpec → List String → Except String Unit

/-- The section names recognized by `StatementParser::parse` (lines 97-107). -/
def ibKnownSections : List String :=
  ["Statement", "Account Information", "Change in NAV", "Cash Report",
   "Open Positions", "Trades", "Deposits & Withdrawals", "Dividends",
   "Withholding Tax", "Interest", "Financial Instrument Information"]

/-- Modelled from the spec: "An unrecognized section name yields a no-op
handler (forward compatibility for unmodeled disclosures) rather than
failing the whole parse" (`parsers::UnknownRecordParser`, whose file is not
among the provided sources): no declared kinds, nothing skipped besides the
default "Total" rows, and a handler that accepts every row. -/
def UnknownRecordParser : RecordParserSpec :=
  { data_types := none
    skip_data_types := none
    skip_totals := true
    parseRow := fun _ _ => .ok () }

/-- Handler dispatch of `StatementParser::parse` (lines 96-109): a known
section name selects its parser from the environment of modelled handlers,
any other name gets the no-op `UnknownRecordParser`. -/
def dispatchParser (env : String → RecordParserSpec) (name : String) : RecordParserSpec :=
  if name ∈ ibKnownSections then env name else UnknownRecordParser

/-- `parse_header` (lines 175-181): the section name is the first field,
the column schema the fields after the leading two. -/
def parse_header (record : List String) : RecordSpec :=
  { name := record.getD 0 "", fields := record.drop 2 }

/-- The states of the dispatch loop (`ib::State` plus the active-section
inner loop): `idle` awaits the next row, `record` re-dispatches a row,
`header` installs a new section schema, `active` consumes a section's data
rows. -/
inductive IbState where
  | idle : IbState
  | record : List String → IbState
  | header : List String → IbState
  | active : RecordSpec → IbState

/-- Rank used for the termination measure of `ibRun`. -/
def ibStateRank : IbState → ℕ
  | .idle => 0
  | .active _ => 0
  | .header _ => 1
  | .record _ => 2

/-- The dispatch state machine of `StatementParser::parse` (lines 72-160)
over the remaining rows.  The `active` state is the inner `for` loop over a
section's data rows; the parser of the active section is derived from its
schema name on each row, which agrees with the source's one-time dispatch
because dispatch is pure. -/
def ibRun (env : String → RecordParserSpec) : IbState → List (List String) → Except String Unit
  | .idle, [] => .ok ()
  | .idle, r :: rows => ibRun env (.record r) rows
  | .record r, rows =>
    if r.length < 2 then .error "Invalid record"
    else if r.getD 1 "" = "Header" then ibRun env (.header r) rows
    else if r.getD 1 "" = "" then ibRun env .idle rows
    else .error "Invalid record"
  | .header r, rows => ibRun env (.active (parse_header r)) rows
  | .active _, [] => .ok ()
  | .active spec, r :: rows =>
    if r.length < 3 then .error "Invalid record"
    else if r.getD 0 "" ≠ spec.name then ibRun env (.record r) rows
    else if r.getD 1 "" = "Header" then ibRun env (.header r) rows
    else if (match (dispatchParser env spec.name).skip_data_types with
             | some kinds => decide (r.getD 1 "" ∈ kinds)
             | none => false) then ibRun env (.active spec) rows
    else if (match (dispatchParser env spec.name).data_types with
             | some kinds => decide (r.getD 1 "" ∉ kinds)
             | none => false) then .error "Invalid data record type"
    else if (dispatchParser env spec.name).skip_totals && (r.getD 2 "").startsWith "Total" then
      ibRun env (.active spec) rows
    else
      match (dispatchParser env spec.name).parseRow spec r with
      | .ok _ => ibRun env (.active spec) rows
      | .error e => .error ("Failed to parse record: " ++ e)
termination_by st rows => 3 * rows.length + ibStateRank st
decreasing_by all_goals simp [ibStateRank] <;> omega

/-- Concatenation of a list of lists, used to state what repeated appending
accumulates to. -/
def concatAll {α : Type} : List (List α) → List α
  | [] => []
  | l :: rest => l ++ concatAll rest

/-! ## Sample fixtures for the concrete witnesses -/

/-- A zero cash amount used by the witness fixtures. -/
def sampleCash : Cash :=
  { currency := "USD", amount := 0 }

/-- A fresh buy lot fixture. -/
def sampleBuy (symbol : String) (quantity : ℕ) (conclusion execution : ℕ) : StockBuy :=
  { symbol := symbol, quantity := quantity, price := sampleCash, commission := sampleCash,
    conclusion_date := conclusion, execution_date := execution, sold := 0 }

/-- An unprocessed sell fixture. -/
def sampleSell (symbol : String) (quantity : ℕ) : StockSell :=
  { symbol := symbol, quantity := quantity, price := sampleCash, commission := sampleCash,
    conclusion_date := 10, execution_date := 11, sources := [] }

/-- An event-free partial statement fixture with the given period. -/
def samplePartial (start stop : ℕ) : PartialBrokerStatement :=
  { period := some (start, stop), starting_assets := some false, cash_flows := [],
    cash_assets := [], stock_buys := [], stock_sells := [], dividends := [],
    open_positions := [], instrument_names := [] }

/-- An event-free joint statement fixture with period (0, 5). -/
def sampleStatement : BrokerStatement :=
  { period := (0, 5), cash_flows := [], cash_assets := [], stock_buys := [],
    stock_sells := [], dividends := [], open_positions := [], instrument_names := [] }

/-! ## Theorems for claim C4 -/

theorem round_to_nonneg (value : ℚ) (points : ℕ) (h : 0 ≤ value) :
    0 ≤ round_to value points := by
  unfold round_to
  have h10 : (0:ℚ) < 10 ^ points := by positivity
  apply div_nonneg _ (le_of_lt h10)
  have hv : (0:ℚ) ≤ value * 10 ^ points := by positivity
  rw [round_eq]
  have : (0:ℤ) ≤ ⌊value * 10 ^ points + 1 / 2⌋ := by
    have : ((0:ℤ):ℚ) ≤ value * 10 ^ points + 1 / 2 := by
      push_cast
      linarith
    exact Int.le_floor.mpr this
  exact_mod_cast this

/-- C4: `tax_to_pay(income, already_paid)` returns zero for every
non-positive income; for strictly positive income it returns
`round(income × rate)`, reduced by `round(already_paid)` when a paid tax is
given and floored at zero; and it never returns a negative amount (for a
non-negative tax rate). -/
theorem tax_to_pay_c4 :
    (∀ (c : Country) (income : ℚ) (paid : Option ℚ), income ≤ 0 →
      c.tax_to_pay income paid = some 0)
  ∧ (∀ (c : Country) (income : ℚ), 0 < income →
      c.tax_to_pay income none = some (c.round_tax (income * c.tax_rate)))
  ∧ (∀ (c : Country) (income paid : ℚ), 0 < income → 0 ≤ paid →
      c.tax_to_pay income (some paid) =
        some (max (c.round_tax (income * c.tax_rate) - c.round_tax paid) 0))
  ∧ (∀ (c : Country) (income : ℚ) (paid : Option ℚ) (result : ℚ), 0 ≤ c.tax_rate →
      c.tax_to_pay income paid = some result → 0 ≤ result) := by
  refine ⟨?_, ?_, ?_, ?_⟩
  · intro c income paid h
    unfold Country.tax_to_pay
    rcases lt_or_eq_of_le h with h' | h'
    · simp [h']
    · simp [h']
  · intro c income h
    unfold Country.tax_to_pay
    simp [not_lt.mpr (le_of_lt h), ne_of_gt h]
  · intro c income paid hpos hpaid
    unfold Country.tax_to_pay
    have hcond : ¬ (income < 0 ∨ income = 0) := by
      push_neg
      exact ⟨le_of_lt hpos, ne_of_gt hpos⟩
    rw [if_neg hcond]
    simp only [if_neg (not_lt.mpr hpaid)]
    split
    · rename_i hlt
      congr 1
      rw [max_eq_left]
      linarith
    · rename_i hge
      congr 1
      rw [max_eq_right]
      push_neg at hge
      linarith
  · intro c income paid result hrate h
    unfold Country.tax_to_pay at h
    by_cases hneg : income < 0 ∨ income = 0
    · rw [if_pos hneg] at h
      injection h with h
      rw [← h]
    · rw [if_neg hneg] at h
      have hpos : 0 < income := by
        push_neg at hneg
        rcases lt_trichotomy income 0 with h' | h' | h'
        · exact absurd h' (not_lt.mpr hneg.1)
        · exact absurd h' hneg.2
        · exact h'
      have htax : 0 ≤ c.round_tax (income * c.tax_rate) := by
        apply round_to_nonneg
        positivity
      cases paid with
      | none =>
        injection h with h
        rw [← h]
        exact htax
      | some p =>
        simp only [] at h
        by_cases hp : p < 0
        · rw [if_pos hp] at h
          exact absurd h (by simp)
        · rw [if_neg hp] at h
          split at h
          · rename_i hlt
            injection h with h
            rw [← h]
            linarith
          · injection h with h
            rw [← h]

theorem tax_to_pay_c4_witness :
    russia.tax_to_pay (-5) none = some 0
  ∧ russia.tax_to_pay 100 none = some (russia.round_tax (100 * russia.tax_rate))
  ∧ russia.tax_to_pay 100 (some 5) =
      some (max (russia.round_tax (100 * russia.tax_rate) - russia.round_tax 5) 0)
  ∧ (0:ℚ) ≤ 8 := by
  have h13 : russia.round_tax (100 * russia.tax_rate) = 13 := by
    simp only [russia, Country.round_tax, round_to, round_eq]
    norm_num
  have h5 : russia.round_tax (5:ℚ) = 5 := by
    simp only [russia, Country.round_tax, round_to, round_eq]
    norm_num
  have happ : russia.tax_to_pay 100 (some 5) = some 8 := by
    rw [tax_to_pay_c4.2.2.1 russia 100 5 (by norm_num) (by norm_num), h13, h5]
    norm_num
  exact ⟨tax_to_pay_c4.1 russia (-5) none (by norm_num),
         tax_to_pay_c4.2.1 russia 100 (by norm_num),
         tax_to_pay_c4.2.2.1 russia 100 5 (by norm_num) (by norm_num),
         tax_to_pay_c4.2.2.2 russia 100 (some 5) 8 (by norm_num [russia]) happ⟩

/-! ## Helper lemmas -/

theorem execNonDecreasing_iff (ds : List ℕ) :
    execNonDecreasing ds = true ↔ List.Chain' (· ≤ ·) ds := by
  induction ds with
  | nil => simp [execNonDecreasing]
  | cons a rest ih =>
    cases rest with
    | nil => simp [execNonDecreasing]
    | cons b rest2 =>
      simp only [execNonDecreasing, Bool.and_eq_true, decide_eq_true_eq, List.chain'_cons]
      exact and_congr Iff.rfl ih

theorem merge_eq (s : BrokerStatement) (p : PartialBrokerStatement) (per : ℕ × ℕ)
    (hper : p.period = some per) :
    s.merge p =
      if per.1 ≠ s.period.2 then .error "Non-continuous periods"
      else .ok { period := (s.period.1, per.2)
                 cash_flows := s.cash_flows ++ p.cash_flows
                 cash_assets := p.cash_assets
                 stock_buys := s.stock_buys ++ p.stock_buys
                 stock_sells := s.stock_sells ++ p.stock_sells
                 dividends := s.dividends ++ p.dividends
                 open_positions := p.open_positions
                 instrument_names := extendA s.instrument_names p.instrument_names } := by
  unfold BrokerStatement.merge PartialBrokerStatement.get_period
  rw [hper]

theorem merge_ok_fields (s : BrokerStatement) (p : PartialBrokerStatement)
    (s2 : BrokerStatement) (h : s.merge p = .ok s2) :
    s2.cash_assets = p.cash_assets
    ∧ s2.open_positions = p.open_positions
    ∧ s2.cash_flows = s.cash_flows ++ p.cash_flows
    ∧ s2.stock_buys = s.stock_buys ++ p.stock_buys
    ∧ s2.stock_sells = s.stock_sells ++ p.stock_sells
    ∧ s2.dividends = s.dividends ++ p.dividends := by
  unfold BrokerStatement.merge at h
  split at h
  · exact absurd h (by simp)
  · split at h
    · exact absurd h (by simp)
    · injection h with h
      subst h
      exact ⟨rfl, rfl, rfl, rfl, rfl, rfl⟩

theorem mergeAll_contiguous (l : List PartialBrokerStatement) :
    ∀ s : BrokerStatement, contiguousFrom s.period.2 l = true →
      ∃ s2, mergeAll s l = .ok s2 ∧ s2.period = (s.period.1, lastEnd s.period.2 l) := by
  induction l with
  | nil =>
    intro s _
    exact ⟨s, rfl, rfl⟩
  | cons p rest ih =>
    intro s h
    cases hper : p.period with
    | none => simp [contiguousFrom, hper] at h
    | some per =>
      simp only [contiguousFrom, hper, Bool.and_eq_true, beq_iff_eq] at h
      obtain ⟨h1, h2⟩ := h
      have hmerge : s.merge p =
          .ok { period := (s.period.1, per.2)
                cash_flows := s.cash_flows ++ p.cash_flows
                cash_assets := p.cash_assets
                stock_buys := s.stock_buys ++ p.stock_buys
                stock_sells := s.stock_sells ++ p.stock_sells
                dividends := s.dividends ++ p.dividends
                open_positions := p.open_positions
                instrument_names := extendA s.instrument_names p.instrument_names } := by
        rw [merge_eq s p per hper, if_neg (not_not_intro h1)]
      obtain ⟨s3, hok, hperiod⟩ := ih
        { period := (s.period.1, per.2)
          cash_flows := s.cash_flows ++ p.cash_flows
          cash_assets := p.cash_assets
          stock_buys := s.stock_buys ++ p.stock_buys
          stock_sells := s.stock_sells ++ p.stock_sells
          dividends := s.dividends ++ p.dividends
          open_positions := p.open_positions
          instrument_names := extendA s.instrument_names p.instrument_names } h2
      refine ⟨s3, ?_, ?_⟩
      · simp only [mergeAll]
        rw [hmerge]
        exact hok
      · rw [hperiod]
        simp only [lastEnd, hper, Option.getD_some]
  

theorem lastEnd_getLast (l : List PartialBrokerStatement) :
    ∀ d p, contiguousFrom d l = true → l.getLast? = some p →
      ∃ per, p.period = some per ∧ lastEnd d l = per.2 := by
  induction l with
  | nil =>
    intro d p h hl
    simp at hl
  | cons q rest ih =>
    intro d p h hl
    cases hper : q.period with
    | none => simp [contiguousFrom, hper] at h
    | some per =>
      simp only [contiguousFrom, hper, Bool.and_eq_true, beq_iff_eq] at h
      cases rest with
      | nil =>
        simp only [List.getLast?_singleton, Option.some.injEq] at hl
        subst hl
        exact ⟨per, hper, by simp [lastEnd, hper]⟩
      | cons r rest2 =>
        rw [List.getLast?_cons_cons] at hl
        obtain ⟨per2, hp2, hlast⟩ := ih per.2 p h.2 hl
        refine ⟨per2, hp2, ?_⟩
        simpa [lastEnd, hper] using hlast

/-! ## Claim C3: merge continuity and the merged period -/

/-- C3: merging a partial statement succeeds only when its period start
equals the growing statement's period end exactly, and fails with a
continuity error otherwise; for a contiguous chain of partial statements
(sorted by period start), the merged statement's period is (first
statement's start, last statement's end). -/
theorem merge_continuity_c3 :
    (∀ (s : BrokerStatement) (p : PartialBrokerStatement) (per : ℕ × ℕ),
       p.period = some per → per.1 ≠ s.period.2 →
       s.merge p = .error "Non-continuous periods")
  ∧ (∀ (s : BrokerStatement) (p : PartialBrokerStatement) (per : ℕ × ℕ),
       p.period = some per → per.1 = s.period.2 →
       ∃ s2, s.merge p = .ok s2 ∧ s2.period = (s.period.1, per.2))
  ∧ (∀ (statements : List PartialBrokerStatement) (first : PartialBrokerStatement)
       (rest : List PartialBrokerStatement) (per : ℕ × ℕ),
       sortStatements statements = first :: rest →
       first.period = some per →
       first.starting_assets = some false →
       contiguousFrom per.1 (first :: rest) = true →
       ∃ s2 lastP lper, new_from_core statements = .ok s2
         ∧ (first :: rest).getLast? = some lastP
         ∧ lastP.period = some lper
         ∧ s2.period = (per.1, lper.2)) := by
  refine ⟨?_, ?_, ?_⟩
  · intro s p per hper hne
    rw [merge_eq s p per hper, if_pos hne]
  · intro s p per hper heq
    refine ⟨{ period := (s.period.1, per.2)
              cash_flows := s.cash_flows ++ p.cash_flows
              cash_assets := p.cash_assets
              stock_buys := s.stock_buys ++ p.stock_buys
              stock_sells := s.stock_sells ++ p.stock_sells
              dividends := s.dividends ++ p.dividends
              open_positions := p.open_positions
              instrument_names := extendA s.instrument_names p.instrument_names }, ?_, rfl⟩
    rw [merge_eq s p per hper, if_neg (not_not_intro heq)]
  · intro statements first rest per hsort hper hassets hcont
    have hseed : BrokerStatement.new_empty_from first =
        .ok { period := (per.1, per.1), cash_flows := [], cash_assets := [],
              stock_buys := [], stock_sells := [], dividends := [],
              open_positions := [], instrument_names := [] } := by
      unfold BrokerStatement.new_empty_from PartialBrokerStatement.get_period
        PartialBrokerStatement.get_starting_assets
      rw [hper, hassets]
    obtain ⟨s2, hok, hperiod⟩ := mergeAll_contiguous (first :: rest)
      { period := (per.1, per.1), cash_flows := [], cash_assets := [],
        stock_buys := [], stock_sells := [], dividends := [],
        open_positions := [], instrument_names := [] } hcont
    have hlast : ∃ lastP, (first :: rest).getLast? = some lastP := by
      cases hl : (first :: rest).getLast? with
      | some q => exact ⟨q, rfl⟩
      | none => simp [List.getLast?_eq_none_iff] at hl
    obtain ⟨lastP, hl⟩ := hlast
    obtain ⟨lper, hlp, hlend⟩ := lastEnd_getLast (first :: rest) per.1 lastP hcont hl
    refine ⟨s2, lastP, lper, ?_, hl, hlp, ?_⟩
    · unfold new_from_core
      rw [hsort]
      show (match BrokerStatement.new_empty_from first with
            | Except.error e => Except.error e
            | Except.ok seed => mergeAll seed (first :: rest)) = Except.ok s2
      rw [hseed]
      exact hok
    · rw [hperiod, hlend]

theorem merge_continuity_c3_witness :
    (sampleStatement.merge (samplePartial 7 9) = .error "Non-continuous periods")
  ∧ (∃ s2, sampleStatement.merge (samplePartial 5 9) = .ok s2 ∧ s2.period = (0, 9))
  ∧ (∃ s2 lastP lper,
       new_from_core [samplePartial 0 5, samplePartial 5 9] = .ok s2
       ∧ [samplePartial 0 5, samplePartial 5 9].getLast? = some lastP
       ∧ lastP.period = some lper
       ∧ s2.period = (0, lper.2)) := by
  refine ⟨?_, ?_, ?_⟩
  · exact merge_continuity_c3.1 sampleStatement (samplePartial 7 9) (7, 9) rfl (by decide)
  · obtain ⟨s2, h1, h2⟩ :=
      merge_continuity_c3.2.1 sampleStatement (samplePartial 5 9) (5, 9) rfl rfl
    exact ⟨s2, h1, h2⟩
  · exact merge_continuity_c3.2.2 [samplePartial 0 5, samplePartial 5 9]
      (samplePartial 0 5) [samplePartial 5 9] (0, 5) rfl rfl rfl rfl

/-! ## Claim C6: the seed statement -/

/-- C6: building a statement from a list of partial statements fails when
the earliest partial statement (after sorting by period start) declares
non-zero starting assets; with zero starting assets the empty seed statement
is created with its period collapsed to the single instant at that
statement's period start. -/
theorem seed_statement_c6 :
    (∀ (p : PartialBrokerStatement) (per : ℕ × ℕ),
       p.period = some per → p.starting_assets = some true →
       BrokerStatement.new_empty_from p =
         .error "Invalid broker statement period: It has a non-zero starting assets")
  ∧ (∀ (p : PartialBrokerStatement) (per : ℕ × ℕ),
       p.period = some per → p.starting_assets = some false →
       BrokerStatement.new_empty_from p =
         .ok { period := (per.1, per.1), cash_flows := [], cash_assets := [],
               stock_buys := [], stock_sells := [], dividends := [],
               open_positions := [], instrument_names := [] })
  ∧ (∀ (statements : List PartialBrokerStatement) (first : PartialBrokerStatement)
       (rest : List PartialBrokerStatement) (per : ℕ × ℕ),
       sortStatements statements = first :: rest →
       first.period = some per → first.starting_assets = some true →
       new_from_core statements =
         .error "Invalid broker statement period: It has a non-zero starting assets") := by
  refine ⟨?_, ?_, ?_⟩
  · intro p per hper hassets
    unfold BrokerStatement.new_empty_from PartialBrokerStatement.get_period
      PartialBrokerStatement.get_starting_assets
    rw [hper, hassets]
  · intro p per hper hassets
    unfold BrokerStatement.new_empty_from PartialBrokerStatement.get_period
      PartialBrokerStatement.get_starting_assets
    rw [hper, hassets]
  · intro statements first rest per hsort hper hassets
    have hseed : BrokerStatement.new_empty_from first =
        .error "Invalid broker statement period: It has a non-zero starting assets" := by
      unfold BrokerStatement.new_empty_from PartialBrokerStatement.get_period
        PartialBrokerStatement.get_starting_assets
      rw [hper, hassets]
    unfold new_from_core
    rw [hsort]
    show (match BrokerStatement.new_empty_from first with
          | Except.error e => Except.error e
          | Except.ok seed => mergeAll seed (first :: rest)) =
        Except.error "Invalid broker statement period: It has a non-zero starting assets"
    rw [hseed]

theorem seed_statement_c6_witness :
    (BrokerStatement.new_empty_from
       { samplePartial 3 8 with starting_assets := some true } =
       .error "Invalid broker statement period: It has a non-zero starting assets")
  ∧ (BrokerStatement.new_empty_from (samplePartial 3 8) =
       .ok { period := (3, 3), cash_flows := [], cash_assets := [],
             stock_buys := [], stock_sells := [], dividends := [],
             open_positions := [], instrument_names := [] })
  ∧ (new_from_core [{ samplePartial 3 8 with starting_assets := some true }] =
       .error "Invalid broker statement period: It has a non-zero starting assets") :=
  ⟨seed_statement_c6.1 { samplePartial 3 8 with starting_assets := some true } (3, 8) rfl rfl,
   seed_statement_c6.2.1 (samplePartial 3 8) (3, 8) rfl rfl,
   seed_statement_c6.2.2 [{ samplePartial 3 8 with starting_assets := some true }]
     { samplePartial 3 8 with starting_assets := some true } [] (3, 8) rfl rfl rfl⟩

/-! ## Claim C7: execution-date ordering is checked, not repaired -/

/-- C7: after sorting the buy (respectively sell) list by (conclusion date,
execution date), the ordering step fails with an error whenever the
resulting execution dates are not non-decreasing, and on success returns
exactly the key-sorted list — it never re-sorts by execution date. -/
theorem order_trades_c7 :
    (∀ (l sorted : List StockBuy), order_stock_buys l = .ok sorted →
       sorted = sortStockBuys l
       ∧ List.Chain' (· ≤ ·) (sorted.map (fun b => b.execution_date)))
  ∧ (∀ l : List StockBuy,
       ¬ List.Chain' (· ≤ ·) ((sortStockBuys l).map (fun b => b.execution_date)) →
       order_stock_buys l = .error "Got an unexpected execution order for buy trades")
  ∧ (∀ (l sorted : List StockSell), order_stock_sells l = .ok sorted →
       sorted = sortStockSells l
       ∧ List.Chain' (· ≤ ·) (sorted.map (fun s => s.execution_date)))
  ∧ (∀ l : List StockSell,
       ¬ List.Chain' (· ≤ ·) ((sortStockSells l).map (fun s => s.execution_date)) →
       order_stock_sells l = .error "Got an unexpected execution order for sell trades") := by
  refine ⟨?_, ?_, ?_, ?_⟩
  · intro l sorted h
    unfold order_stock_buys at h
    simp only [] at h
    split at h
    · rename_i hchk
      injection h with h
      exact ⟨h.symm, (execNonDecreasing_iff _).mp (by rw [h] at hchk; exact hchk)⟩
    · exact absurd h (by simp)
  · intro l hchain
    unfold order_stock_buys
    rw [if_neg]
    intro hchk
    exact hchain ((execNonDecreasing_iff _).mp hchk)
  · intro l sorted h
    unfold order_stock_sells at h
    simp only [] at h
    split at h
    · rename_i hchk
      injection h with h
      exact ⟨h.symm, (execNonDecreasing_iff _).mp (by rw [h] at hchk; exact hchk)⟩
    · exact absurd h (by simp)
  · intro l hchain
    unfold order_stock_sells
    rw [if_neg]
    intro hchk
    exact hchain ((execNonDecreasing_iff _).mp hchk)

theorem order_trades_c7_witness :
    (sortStockBuys [sampleBuy "A" 1 1 5, sampleBuy "A" 1 2 6] =
       [sampleBuy "A" 1 1 5, sampleBuy "A" 1 2 6]
     ∧ List.Chain' (· ≤ ·)
         (([sampleBuy "A" 1 1 5, sampleBuy "A" 1 2 6]).map (fun b => b.execution_date)))
  ∧ (order_stock_buys [sampleBuy "A" 1 2 3, sampleBuy "A" 1 1 5] =
       .error "Got an unexpected execution order for buy trades") := by
  constructor
  · have h := order_trades_c7.1 [sampleBuy "A" 1 1 5, sampleBuy "A" 1 2 6]
      [sampleBuy "A" 1 1 5, sampleBuy "A" 1 2 6] rfl
    exact ⟨h.1.symm ▸ rfl, by simpa using h.2⟩
  · exact order_trades_c7.2.1 [sampleBuy "A" 1 2 3, sampleBuy "A" 1 1 5]
      (by simp [sortStockBuys, insertBuy, sampleBuy, buyKey, tradeKeyLe, List.chain'_cons])

/-! ## Claim C10: snapshots replace, event lists append -/

theorem mergeAll_ok_cons (s : BrokerStatement) (p : PartialBrokerStatement)
    (rest : List PartialBrokerStatement) (s2 : BrokerStatement)
    (h : mergeAll s (p :: rest) = .ok s2) :
    ∃ s1, s.merge p = .ok s1 ∧ mergeAll s1 rest = .ok s2 := by
  simp only [mergeAll] at h
  cases hm : s.merge p with
  | error e => rw [hm] at h; exact absurd h (by simp)
  | ok s1 =>
    rw [hm] at h
    exact ⟨s1, rfl, h⟩

/-- C10: every successful merge replaces the cash-assets balance and the
open-position map with the incoming partial statement's snapshots while
appending the cash-flow, stock-buy, stock-sell and dividend lists; hence
after merging a whole list the snapshots equal the last partial statement's
values alone and the event lists are the concatenation of all partials'. -/
theorem merge_snapshot_c10 :
    (∀ (s : BrokerStatement) (p : PartialBrokerStatement) (s2 : BrokerStatement),
       s.merge p = .ok s2 →
       s2.cash_assets = p.cash_assets
       ∧ s2.open_positions = p.open_positions
       ∧ s2.cash_flows = s.cash_flows ++ p.cash_flows
       ∧ s2.stock_buys = s.stock_buys ++ p.stock_buys
       ∧ s2.stock_sells = s.stock_sells ++ p.stock_sells
       ∧ s2.dividends = s.dividends ++ p.dividends)
  ∧ (∀ (s : BrokerStatement) (l : List PartialBrokerStatement) (s2 : BrokerStatement),
       mergeAll s l = .ok s2 →
       (∀ p, l.getLast? = some p →
          s2.cash_assets = p.cash_assets ∧ s2.open_positions = p.open_positions)
       ∧ s2.cash_flows = s.cash_flows ++ concatAll (l.map (fun p => p.cash_flows))
       ∧ s2.stock_buys = s.stock_buys ++ concatAll (l.map (fun p => p.stock_buys))
       ∧ s2.stock_sells = s.stock_sells ++ concatAll (l.map (fun p => p.stock_sells))
       ∧ s2.dividends = s.dividends ++ concatAll (l.map (fun p => p.dividends))) := by
  constructor
  · exact merge_ok_fields
  · intro s l
    induction l generalizing s with
    | nil =>
      intro s2 h
      simp only [mergeAll] at h
      injection h with h
      subst h
      refine ⟨?_, ?_, ?_, ?_, ?_⟩ <;> simp [concatAll]
    | cons p rest ih =>
      intro s2 h
      obtain ⟨s1, hm, hrest⟩ := mergeAll_ok_cons s p rest s2 h
      obtain ⟨hca, hop, hcf, hsb, hss, hdv⟩ := merge_ok_fields s p s1 hm
      obtain ⟨ihlast, ihcf, ihsb, ihss, ihdv⟩ := ih s1 s2 hrest
      refine ⟨?_, ?_, ?_, ?_, ?_⟩
      · intro q hq
        cases rest with
        | nil =>
          simp only [List.getLast?_singleton, Option.some.injEq] at hq
          subst hq
          have : mergeAll s1 [] = Except.ok s2 := hrest
          simp only [mergeAll] at this
          injection this with this
          subst this
          exact ⟨hca, hop⟩
        | cons r rest2 =>
          rw [List.getLast?_cons_cons] at hq
          exact ihlast q hq
      · rw [ihcf, hcf]
        simp [concatAll, List.append_assoc]
      · rw [ihsb, hsb]
        simp [concatAll, List.append_assoc]
      · rw [ihss, hss]
        simp [concatAll, List.append_assoc]
      · rw [ihdv, hdv]
        simp [concatAll, List.append_assoc]

theorem merge_snapshot_c10_witness :
    (∀ s2 : BrokerStatement,
       sampleStatement.merge
         { samplePartial 5 9 with cash_assets := [("USD", 100)],
                                  open_positions := [("A", 10)] } = .ok s2 →
       s2.cash_assets = [("USD", 100)]
       ∧ s2.open_positions = [("A", 10)]
       ∧ s2.cash_flows = []
       ∧ s2.stock_buys = []
       ∧ s2.stock_sells = []
       ∧ s2.dividends = []) := by
  intro s2 h
  have := merge_snapshot_c10.1 sampleStatement
    { samplePartial 5 9 with cash_assets := [("USD", 100)], open_positions := [("A", 10)] }
    s2 h
  simpa [sampleStatement, samplePartial] using this

/-! ## Claim C8: section interleaving and unknown sections -/

/-- C8: while a section is active, a data row whose section name differs
from the active schema's name returns control to row re-dispatch, and a row
whose second field is "Header" returns control to header dispatch, neither
raising an error; every unrecognized section name dispatches to the no-op
`UnknownRecordParser`, under which every data row of the section is consumed
without failing the parse. -/
theorem ib_dispatch_c8 :
    (∀ (env : String → RecordParserSpec) (spec : RecordSpec) (r : List String)
       (rows : List (List String)),
       3 ≤ r.length → r.getD 0 "" ≠ spec.name →
       ibRun env (.active spec) (r :: rows) = ibRun env (.record r) rows)
  ∧ (∀ (env : String → RecordParserSpec) (spec : RecordSpec) (r : List String)
       (rows : List (List String)),
       3 ≤ r.length → r.getD 0 "" = spec.name → r.getD 1 "" = "Header" →
       ibRun env (.active spec) (r :: rows) = ibRun env (.header r) rows)
  ∧ (∀ (env : String → RecordParserSpec) (name : String),
       name ∉ ibKnownSections → dispatchParser env name = UnknownRecordParser)
  ∧ (∀ (env : String → RecordParserSpec) (spec : RecordSpec) (r : List String)
       (rows : List (List String)),
       spec.name ∉ ibKnownSections →
       3 ≤ r.length → r.getD 0 "" = spec.name → r.getD 1 "" ≠ "Header" →
       ibRun env (.active spec) (r :: rows) = ibRun env (.active spec) rows) := by
  refine ⟨?_, ?_, ?_, ?_⟩
  · intro env spec r rows hlen hname
    conv_lhs => rw [ibRun]
    rw [if_neg (show ¬ r.length < 3 by omega), if_pos hname]
  · intro env spec r rows hlen hname hheader
    conv_lhs => rw [ibRun]
    rw [if_neg (show ¬ r.length < 3 by omega), if_neg (not_not_intro hname), if_pos hheader]
  · intro env name hname
    unfold dispatchParser
    rw [if_neg hname]
  · intro env spec r rows hunknown hlen hname hheader
    have hdp : dispatchParser env spec.name = UnknownRecordParser := by
      unfold dispatchParser
      rw [if_neg hunknown]
    conv_lhs => rw [ibRun]
    rw [if_neg (show ¬ r.length < 3 by omega), if_neg (not_not_intro hname), if_neg hheader,
      hdp]
    simp only [UnknownRecordParser, Bool.false_eq_true, if_false, Bool.true_and]
    split <;> rfl

theorem ib_dispatch_c8_witness :
    (ibRun (fun _ => UnknownRecordParser) (.active { name := "Trades", fields := [] })
       [["Dividends", "Data", "x"]] =
     ibRun (fun _ => UnknownRecordParser) (.record ["Dividends", "Data", "x"]) [])
  ∧ (ibRun (fun _ => UnknownRecordParser) (.active { name := "Trades", fields := [] })
       [["Trades", "Header", "y"]] =
     ibRun (fun _ => UnknownRecordParser) (.header ["Trades", "Header", "y"]) [])
  ∧ (dispatchParser (fun _ => UnknownRecordParser) "Custom Disclosures" = UnknownRecordParser)
  ∧ (ibRun (fun _ => UnknownRecordParser)
       (.active { name := "Custom Disclosures", fields := [] })
       [["Custom Disclosures", "Data", "z"]] =
     ibRun (fun _ => UnknownRecordParser)
       (.active { name := "Custom Disclosures", fields := [] }) []) :=
  ⟨ib_dispatch_c8.1 (fun _ => UnknownRecordParser) { name := "Trades", fields := [] }
     ["Dividends", "Data", "x"] [] (by decide) (by decide),
   ib_dispatch_c8.2.1 (fun _ => UnknownRecordParser) { name := "Trades", fields := [] }
     ["Trades", "Header", "y"] [] (by decide) (by decide) (by decide),
   ib_dispatch_c8.2.2.1 (fun _ => UnknownRecordParser) "Custom Disclosures" (by decide),
   ib_dispatch_c8.2.2.2 (fun _ => UnknownRecordParser)
     { name := "Custom Disclosures", fields := [] }
     ["Custom Disclosures", "Data", "z"] [] (by decide) (by decide) (by decide) (by decide)⟩

/-! ## Unfolding lemmas and helpers for the matching engine -/

theorem matchSell_eq (symbol : String) (remaining : ℕ) (queue : List StockBuy) :
    matchSell symbol remaining queue =
      if remaining = 0 then .ok ([], [], queue)
      else
        match queue.getLast? with
        | none => .error (noPositionsError symbol)
        | some stock_buy =>
          if min remaining stock_buy.get_unsold = 0 then
            .error "Assertion failed: sell_quantity > 0"
          else
            if (stock_buy.sell (min remaining stock_buy.get_unsold)).is_sold then
              match matchSell symbol (remaining - min remaining stock_buy.get_unsold)
                  queue.dropLast with
              | .ok (sources, closed, queue2) =>
                .ok (mkSellSource stock_buy (min remaining stock_buy.get_unsold) :: sources,
                     stock_buy.sell (min remaining stock_buy.get_unsold) :: closed, queue2)
              | .error e => .error e
            else
              match matchSell symbol (remaining - min remaining stock_buy.get_unsold)
                  (queue.dropLast ++ [stock_buy.sell (min remaining stock_buy.get_unsold)]) with
              | .ok (sources, closed, queue2) =>
                .ok (mkSellSource stock_buy (min remaining stock_buy.get_unsold) :: sources,
                     closed, queue2)
              | .error e => .error e := by
  conv_lhs => rw [matchSell]

theorem fifoSpec_eq (remaining : ℕ) (lots : List StockBuy) :
    fifoSpec remaining lots =
      if remaining = 0 then some []
      else
        match lots with
        | [] => none
        | lot :: rest =>
          if min remaining lot.get_unsold = 0 then none
          else
            Option.map (fun sources => specSource lot (min remaining lot.get_unsold) :: sources)
              (fifoSpec (remaining - min remaining lot.get_unsold)
                (if min remaining lot.get_unsold = lot.get_unsold then rest
                 else lot.sell (min remaining lot.get_unsold) :: rest)) := by
  rw [fifoSpec.eq_def]

theorem mkSellSource_eq_specSource (b : StockBuy) (q : ℕ) :
    mkSellSource b q = specSource b q := by
  have hcomm : b.commission.amount / (b.quantity : ℚ) * (q : ℚ) =
      b.commission.amount * ((q : ℚ) / (b.quantity : ℚ)) := by
    rw [div_mul_eq_mul_div, mul_div_assoc]
  simp [mkSellSource, specSource, Cash.div, Cash.mul, hcomm]

theorem reverse_eq_cons_of_getLast {α : Type} (l : List α) (b : α)
    (h : l.getLast? = some b) : l.reverse = b :: l.dropLast.reverse := by
  have hne : l ≠ [] := by
    intro he
    subst he
    simp at h
  have hb : l.getLast hne = b := by
    have hh := List.getLast?_eq_getLast l hne
    rw [hh] at h
    injection h
  have hdc := List.dropLast_concat_getLast hne
  conv_lhs => rw [← hdc]
  rw [List.reverse_append, hb]
  rfl

theorem fifoSpec_zero (lots : List StockBuy) : fifoSpec 0 lots = some [] := by
  rw [fifoSpec_eq]
  rfl

theorem fifoSpec_cons (remaining : ℕ) (lot : StockBuy) (rest : List StockBuy)
    (h0 : remaining ≠ 0) :
    fifoSpec remaining (lot :: rest) =
      if min remaining lot.get_unsold = 0 then none
      else
        Option.map (fun sources => specSource lot (min remaining lot.get_unsold) :: sources)
          (fifoSpec (remaining - min remaining lot.get_unsold)
            (if min remaining lot.get_unsold = lot.get_unsold then rest
             else lot.sell (min remaining lot.get_unsold) :: rest)) := by
  rw [fifoSpec_eq, if_neg h0]

theorem matchSell_ok_master (symbol : String) (remaining : ℕ) :
    ∀ queue srcs closed queue2,
      matchSell symbol remaining queue = .ok (srcs, closed, queue2) →
      fifoSpec remaining queue.reverse = some srcs
      ∧ (srcs.map (fun s => s.quantity)).sum = remaining
      ∧ closed.length + queue2.length = queue.length
      ∧ srcs.map sourceKey = (queue.reverse.map buyKey).take srcs.length := by
  induction remaining using Nat.strong_induction_on with
  | _ remaining ih =>
    intro queue srcs closed queue2 h
    rw [matchSell_eq] at h
    by_cases h0 : remaining = 0
    · subst h0
      rw [if_pos rfl] at h
      simp only [Except.ok.injEq, Prod.mk.injEq] at h
      obtain ⟨h1, h2, h3⟩ := h
      subst h1
      subst h2
      subst h3
      exact ⟨fifoSpec_zero _, rfl, by simp, rfl⟩
    · rw [if_neg h0] at h
      cases hlast : queue.getLast? with
      | none =>
        rw [hlast] at h
        exact absurd h (by simp)
      | some b =>
        rw [hlast] at h
        simp only [] at h
        have hne : queue ≠ [] := by
          intro he
          subst he
          simp at hlast
        have hrev : queue.reverse = b :: queue.dropLast.reverse :=
          reverse_eq_cons_of_getLast queue b hlast
        have hlen : queue.length = queue.dropLast.length + 1 := by
          rw [List.length_dropLast]
          cases queue with
          | nil => exact absurd rfl hne
          | cons x xs => simp
        by_cases hq0 : min remaining b.get_unsold = 0
        · rw [if_pos hq0] at h
          exact absurd h (by simp)
        · rw [if_neg hq0] at h
          have hqle : min remaining b.get_unsold ≤ remaining := Nat.min_le_left _ _
          have hqleu : min remaining b.get_unsold ≤ b.get_unsold := Nat.min_le_right _ _
          by_cases hsold : (b.sell (min remaining b.get_unsold)).is_sold = true
          · rw [if_pos hsold] at h
            cases hrec : matchSell symbol (remaining - min remaining b.get_unsold)
                queue.dropLast with
            | error e =>
              rw [hrec] at h
              exact absurd h (by simp)
            | ok t =>
              obtain ⟨srcs', closed', q2'⟩ := t
              rw [hrec] at h
              simp only [Except.ok.injEq, Prod.mk.injEq] at h
              obtain ⟨h1, h2, h3⟩ := h
              subst h1
              subst h2
              subst h3
              obtain ⟨ihfifo, ihsum, ihlen, ihtake⟩ :=
                ih (remaining - min remaining b.get_unsold) (by omega) queue.dropLast
                  srcs' closed' q2' hrec
              have hs2 := hsold
              simp only [StockBuy.sell, StockBuy.is_sold, beq_iff_eq] at hs2
              have hsq : min remaining b.get_unsold = b.get_unsold := by
                unfold StockBuy.get_unsold at hqleu ⊢
                omega
              refine ⟨?_, ?_, ?_, ?_⟩
              · rw [hrev, fifoSpec_cons remaining b _ h0, if_neg hq0, if_pos hsq, ihfifo]
                simp [mkSellSource_eq_specSource]
              · simp only [List.map_cons, List.sum_cons, mkSellSource]
                rw [ihsum]
                omega
              · simp only [List.length_cons]
                omega
              · simp only [hrev, List.map_cons, List.length_cons]
                rw [List.take_succ_cons, ← ihtake]
                rfl
          · rw [if_neg hsold] at h
            cases hrec : matchSell symbol (remaining - min remaining b.get_unsold)
                (queue.dropLast ++ [b.sell (min remaining b.get_unsold)]) with
            | error e =>
              rw [hrec] at h
              exact absurd h (by simp)
            | ok t =>
              obtain ⟨srcs', closed', q2'⟩ := t
              rw [hrec] at h
              simp only [Except.ok.injEq, Prod.mk.injEq] at h
              obtain ⟨h1, h2, h3⟩ := h
              subst h1
              subst h2
              subst h3
              have hneq : min remaining b.get_unsold ≠ b.get_unsold := by
                intro heq
                apply hsold
                simp only [StockBuy.sell, StockBuy.is_sold, beq_iff_eq]
                unfold StockBuy.get_unsold at heq hq0 ⊢
                omega
              have hrem : min remaining b.get_unsold = remaining := by
                omega
              have hzero : remaining - min remaining b.get_unsold = 0 := by
                omega
              rw [hzero, matchSell_eq, if_pos rfl] at hrec
              simp only [Except.ok.injEq, Prod.mk.injEq] at hrec
              obtain ⟨hr1, hr2, hr3⟩ := hrec
              subst hr1
              subst hr2
              subst hr3
              refine ⟨?_, ?_, ?_, ?_⟩
              · rw [hrev, fifoSpec_cons remaining b _ h0, if_neg hq0, if_neg hneq,
                  hzero, fifoSpec_zero]
                simp [mkSellSource_eq_specSource]
              · simp only [List.map_cons, List.sum_cons, mkSellSource, List.map_nil,
                  List.sum_nil]
                omega
              · simp only [List.length_nil, List.length_append, List.length_cons]
                omega
              · simp only [hrev, List.map_cons, List.map_nil, List.length_cons,
                  List.length_nil]
                rw [List.take_succ_cons]
                rfl

theorem matchSell_exhausted (symbol : String) (remaining : ℕ) :
    ∀ queue, (∀ b ∈ queue, 1 ≤ b.get_unsold) → sumUnsold queue < remaining →
      matchSell symbol remaining queue = .error (noPositionsError symbol) := by
  induction remaining using Nat.strong_induction_on with
  | _ remaining ih =>
    intro queue hwf hsum
    have h0 : remaining ≠ 0 := by
      unfold sumUnsold at hsum
      omega
    rw [matchSell_eq, if_neg h0]
    cases hlast : queue.getLast? with
    | none => rfl
    | some b =>
      have hne : queue ≠ [] := by
        intro he
        subst he
        simp at hlast
      have hgb : queue.getLast hne = b := by
        have hh := List.getLast?_eq_getLast queue hne
        rw [hh] at hlast
        injection hlast
      have hb : b ∈ queue := by
        rw [← hgb]
        exact List.getLast_mem hne
      have hbu : 1 ≤ b.get_unsold := hwf b hb
      have hdc := List.dropLast_concat_getLast hne
      have hsplit : sumUnsold queue = sumUnsold queue.dropLast + b.get_unsold := by
        conv_lhs => rw [← hdc]
        rw [hgb]
        simp [sumUnsold]
      have hble : b.get_unsold ≤ sumUnsold queue := by
        omega
      have hq : min remaining b.get_unsold = b.get_unsold := by
        omega
      simp only []
      rw [if_neg (by omega : ¬ min remaining b.get_unsold = 0)]
      have hsold : (b.sell (min remaining b.get_unsold)).is_sold = true := by
        simp only [StockBuy.sell, StockBuy.is_sold, beq_iff_eq]
        unfold StockBuy.get_unsold at hq hbu ⊢
        omega
      rw [if_pos hsold]
      have hwf2 : ∀ b2 ∈ queue.dropLast, 1 ≤ b2.get_unsold := by
        intro b2 hb2
        exact hwf b2 (List.dropLast_subset queue hb2)
      have hsum2 : sumUnsold queue.dropLast < remaining - min remaining b.get_unsold := by
        omega
      have hrec := ih (remaining - min remaining b.get_unsold) (by omega) queue.dropLast
        hwf2 hsum2
      rw [hrec]

theorem lookupA_insertA {α : Type} (m : List (String × α)) (k k' : String) (v : α) :
    lookupA (insertA m k v) k' = if k = k' then some v else lookupA m k' := by
  induction m with
  | nil =>
    simp only [insertA, lookupA]
  | cons kv rest ih =>
    obtain ⟨k0, v0⟩ := kv
    simp only [insertA]
    by_cases h : k0 = k
    · rw [if_pos h]
      subst h
      simp only [lookupA]
      split_ifs <;> simp_all
    · rw [if_neg h]
      simp only [lookupA, ih]
      split_ifs <;> simp_all

theorem mapSize_insertA (m : BuyQueues) (k : String) (v : List StockBuy) :
    mapSize (insertA m k v) + ((lookupA m k).getD []).length = mapSize m + v.length := by
  induction m with
  | nil =>
    simp [insertA, lookupA, mapSize]
  | cons kv rest ih =>
    obtain ⟨k0, q0⟩ := kv
    simp only [insertA]
    by_cases h : k0 = k
    · rw [if_pos h]
      subst h
      simp only [mapSize, lookupA, List.map_cons, List.sum_cons]
      simp only [if_true, Option.getD_some]
      omega
    · rw [if_neg h]
      simp only [mapSize, lookupA, if_neg h, List.map_cons, List.sum_cons]
      simp only [mapSize] at ih
      omega

theorem drainMap_length (m : BuyQueues) : (drainMap m).length = mapSize m := by
  induction m with
  | nil =>
    simp [drainMap, mapSize]
  | cons kv rest ih =>
    obtain ⟨k0, q0⟩ := kv
    simp only [drainMap, mapSize, List.map_cons, List.sum_cons, List.length_append]
    simp only [mapSize] at ih
    omega

theorem totalUnsoldFor_reverse (l : List StockBuy) (sym : String) :
    totalUnsoldFor l.reverse sym = totalUnsoldFor l sym := by
  unfold totalUnsoldFor
  rw [List.filter_reverse, List.map_reverse, List.sum_reverse]

theorem partitionGo_unsold (l : List StockBuy) :
    ∀ acc m sym,
      sumUnsold ((lookupA (partitionBuysGo l acc m).2 sym).getD []) =
        sumUnsold ((lookupA m sym).getD []) + totalUnsoldFor l sym := by
  induction l with
  | nil =>
    intro acc m sym
    simp [partitionBuysGo, totalUnsoldFor]
  | cons b rest ih =>
    intro acc m sym
    by_cases hs : b.is_sold = true
    · simp only [partitionBuysGo, hs, if_true]
      rw [ih]
      unfold totalUnsoldFor
      simp [hs]
    · simp only [partitionBuysGo]
      rw [if_neg hs]
      rw [ih, lookupA_insertA]
      by_cases hsym : b.symbol = sym
      · rw [if_pos hsym]
        subst hsym
        unfold totalUnsoldFor
        simp only [Option.getD_some, List.filter_cons, hs, Bool.not_false, Bool.true_and,
          Bool.not_eq_true]
        rw [if_pos (by simp [hs])]
        unfold sumUnsold
        simp only [List.map_append, List.sum_append, List.map_cons, List.sum_cons,
          List.map_nil, List.sum_nil]
        omega
      · rw [if_neg hsym]
        unfold totalUnsoldFor
        rw [List.filter_cons_of_neg (by simp [hsym])]

theorem partitionGo_wf (l : List StockBuy) :
    ∀ acc m, (∀ b ∈ l, b.sold ≤ b.quantity) →
      (∀ sym b, b ∈ (lookupA m sym).getD [] → 1 ≤ b.get_unsold) →
      ∀ sym b, b ∈ (lookupA (partitionBuysGo l acc m).2 sym).getD [] → 1 ≤ b.get_unsold := by
  induction l with
  | nil =>
    intro acc m hl hm sym b hb
    simp only [partitionBuysGo] at hb
    exact hm sym b hb
  | cons x rest ih =>
    intro acc m hl hm sym b hb
    by_cases hs : x.is_sold = true
    · simp only [partitionBuysGo, hs, if_true] at hb
      exact ih _ _ (fun b2 h2 => hl b2 (List.mem_cons_of_mem x h2)) hm sym b hb
    · simp only [partitionBuysGo] at hb
      rw [if_neg hs] at hb
      refine ih _ _ (fun b2 h2 => hl b2 (List.mem_cons_of_mem x h2)) ?_ sym b hb
      intro sym2 b2 hb2
      rw [lookupA_insertA] at hb2
      by_cases hx : x.symbol = sym2
      · rw [if_pos hx] at hb2
        simp only [Option.getD_some] at hb2
        rcases List.mem_append.mp hb2 with h2 | h2
        · exact hm x.symbol b2 h2
        · simp only [List.mem_singleton] at h2
          subst h2
          have hle := hl b2 (List.mem_cons_self b2 rest)
          simp only [StockBuy.is_sold, beq_iff_eq] at hs
          unfold StockBuy.get_unsold
          omega
      · rw [if_neg hx] at hb2
        exact hm sym2 b2 hb2

theorem partitionGo_length (l : List StockBuy) :
    ∀ acc m,
      (partitionBuysGo l acc m).1.length + mapSize (partitionBuysGo l acc m).2 =
        acc.length + mapSize m + l.length := by
  induction l with
  | nil =>
    intro acc m
    simp [partitionBuysGo]
  | cons b rest ih =>
    intro acc m
    by_cases hs : b.is_sold = true
    · simp only [partitionBuysGo, hs, if_true]
      rw [ih]
      simp only [List.length_append, List.length_cons, List.length_nil, List.length_singleton]
      omega
    · simp only [partitionBuysGo]
      rw [if_neg hs]
      rw [ih]
      have hins := mapSize_insertA m b.symbol ((lookupA m b.symbol).getD [] ++ [b])
      simp only [List.length_append, List.length_singleton] at hins
      simp only [List.length_cons]
      omega

theorem processSells_length (sells : List StockSell) :
    ∀ m sells2 m2 closed, processSells m sells = .ok (sells2, m2, closed) →
      closed.length + mapSize m2 = mapSize m := by
  induction sells with
  | nil =>
    intro m sells2 m2 closed h
    simp only [processSells, Except.ok.injEq, Prod.mk.injEq] at h
    obtain ⟨h1, h2, h3⟩ := h
    subst h2
    subst h3
    simp
  | cons sell rest ih =>
    intro m sells2 m2 closed h
    simp only [processSells] at h
    by_cases hp : sell.is_processed = true
    · rw [if_pos hp] at h
      cases hrec : processSells m rest with
      | error e =>
        rw [hrec] at h
        exact absurd h (by simp)
      | ok t =>
        obtain ⟨sells', m2', closed'⟩ := t
        rw [hrec] at h
        simp only [Except.ok.injEq, Prod.mk.injEq] at h
        obtain ⟨h1, h2, h3⟩ := h
        subst h2
        subst h3
        exact ih m sells' m2' closed' hrec
    · rw [if_neg hp] at h
      cases hlook : lookupA m sell.symbol with
      | none =>
        rw [hlook] at h
        exact absurd h (by simp)
      | some q =>
        rw [hlook] at h
        simp only [] at h
        cases hms : matchSell sell.symbol sell.quantity q with
        | error e =>
          rw [hms] at h
          exact absurd h (by simp)
        | ok t =>
          obtain ⟨srcs, closedHere, q2⟩ := t
          rw [hms] at h
          simp only [] at h
          cases hrec : processSells (insertA m sell.symbol q2) rest with
          | error e =>
            rw [hrec] at h
            exact absurd h (by simp)
          | ok t2 =>
            obtain ⟨sells', m2', closed'⟩ := t2
            rw [hrec] at h
            simp only [Except.ok.injEq, Prod.mk.injEq] at h
            obtain ⟨h1, h2, h3⟩ := h
            subst h2
            subst h3
            have hlen :=
              (matchSell_ok_master sell.symbol sell.quantity q srcs closedHere q2 hms).2.2.1
            have hins := mapSize_insertA m sell.symbol q2
            rw [hlook] at hins
            simp only [Option.getD_some] at hins
            have hrecl := ih _ sells' m2' closed' hrec
            simp only [List.length_append]
            omega

theorem processSells_forall2 (sells : List StockSell) :
    ∀ m sells2 m2 closed, processSells m sells = .ok (sells2, m2, closed) →
      List.Forall₂
        (fun sell sell2 =>
          sell.is_processed = false →
          sell2.quantity = sell.quantity
          ∧ (sell2.sources.map (fun src => src.quantity)).sum = sell2.quantity)
        sells sells2 := by
  induction sells with
  | nil =>
    intro m sells2 m2 closed h
    simp only [processSells, Except.ok.injEq, Prod.mk.injEq] at h
    obtain ⟨h1, h2, h3⟩ := h
    subst h1
    exact List.Forall₂.nil
  | cons sell rest ih =>
    intro m sells2 m2 closed h
    simp only [processSells] at h
    by_cases hp : sell.is_processed = true
    · rw [if_pos hp] at h
      cases hrec : processSells m rest with
      | error e =>
        rw [hrec] at h
        exact absurd h (by simp)
      | ok t =>
        obtain ⟨sells', m2', closed'⟩ := t
        rw [hrec] at h
        simp only [Except.ok.injEq, Prod.mk.injEq] at h
        obtain ⟨h1, h2, h3⟩ := h
        subst h1
        refine List.Forall₂.cons ?_ (ih m sells' m2' closed' hrec)
        intro hfalse
        rw [hp] at hfalse
        exact absurd hfalse (by simp)
    · rw [if_neg hp] at h
      cases hlook : lookupA m sell.symbol with
      | none =>
        rw [hlook] at h
        exact absurd h (by simp)
      | some q =>
        rw [hlook] at h
        simp only [] at h
        cases hms : matchSell sell.symbol sell.quantity q with
        | error e =>
          rw [hms] at h
          exact absurd h (by simp)
        | ok t =>
          obtain ⟨srcs, closedHere, q2⟩ := t
          rw [hms] at h
          simp only [] at h
          cases hrec : processSells (insertA m sell.symbol q2) rest with
          | error e =>
            rw [hrec] at h
            exact absurd h (by simp)
          | ok t2 =>
            obtain ⟨sells', m2', closed'⟩ := t2
            rw [hrec] at h
            simp only [Except.ok.injEq, Prod.mk.injEq] at h
            obtain ⟨h1, h2, h3⟩ := h
            subst h1
            refine List.Forall₂.cons ?_ (ih _ sells' m2' closed' hrec)
            intro _
            have hsum :=
              (matchSell_ok_master sell.symbol sell.quantity q srcs closedHere q2 hms).2.1
            exact ⟨rfl, hsum⟩

/-! ## Claim C9: the rebuilt buy list loses no lot -/

/-- C9: whenever the lot-matching phase completes successfully, the
reassembled buy list (already-sold lots, lots fully consumed by the sells,
and the drained still-open queues) has exactly as many entries as the
original buy list, so the `assert_eq!` reassembly check of `process_trades`
always passes. -/
theorem reassembly_c9 :
    ∀ (s : BrokerStatement) (sells : List StockSell) (buys : List StockBuy),
      matchPhase s = .ok (sells, buys) → buys.length = s.stock_buys.length := by
  intro s sells buys h
  unfold matchPhase at h
  simp only [] at h
  cases hps : processSells (partitionBuys s.stock_buys).2 s.stock_sells with
  | error e =>
    rw [hps] at h
    exact absurd h (by simp)
  | ok t =>
    obtain ⟨sells', m2, closed⟩ := t
    rw [hps] at h
    simp only [Except.ok.injEq, Prod.mk.injEq] at h
    obtain ⟨h1, h2⟩ := h
    subst h2
    have hpart := partitionGo_length s.stock_buys.reverse [] []
    have hproc := processSells_length s.stock_sells _ sells' m2 closed hps
    have hdrain := drainMap_length m2
    have hmz : mapSize ([] : BuyQueues) = 0 := rfl
    unfold partitionBuys at hproc ⊢
    simp only [List.length_nil, List.length_reverse, hmz] at hpart
    simp only [List.length_append]
    omega

theorem reassembly_c9_witness :
    ([] : List StockBuy).length = sampleStatement.stock_buys.length :=
  reassembly_c9 sampleStatement [] [] rfl

/-! ## Claim C2: recomputed open positions must match the declared ones -/

/-- C2: on every successful run of `process_trades` the open positions
recomputed from the unsold quantities of still-open buy lots equal the
statement's declared open-position map (which the matching never modifies),
and whenever the recomputation mismatches the declared map the whole build
fails with the validation error. -/
theorem open_positions_c2 :
    (∀ (s s2 : BrokerStatement), process_trades s = .ok s2 →
       mapEq (calcOpenPositions s2.stock_buys) s2.open_positions = true
       ∧ s2.open_positions = s.open_positions)
  ∧ (∀ (s : BrokerStatement) (sells : List StockSell) (buys buys2 : List StockBuy),
       matchPhase s = .ok (sells, buys) →
       buys.length = s.stock_buys.length →
       order_stock_buys buys = .ok buys2 →
       mapEq (calcOpenPositions buys2) s.open_positions = false →
       process_trades s =
         .error "The calculated open positions don't match declared ones in the statement") := by
  constructor
  · intro s s2 h
    unfold process_trades at h
    cases hmp : matchPhase s with
    | error e =>
      rw [hmp] at h
      exact absurd h (by simp)
    | ok t =>
      obtain ⟨sells, buys⟩ := t
      rw [hmp] at h
      simp only [] at h
      by_cases hlen : buys.length ≠ s.stock_buys.length
      · rw [if_pos hlen] at h
        exact absurd h (by simp)
      · rw [if_neg hlen] at h
        cases hord : order_stock_buys buys with
        | error e =>
          rw [hord] at h
          exact absurd h (by simp)
        | ok buys2 =>
          rw [hord] at h
          simp only [] at h
          cases hval : validate_open_positions
              { s with stock_buys := buys2, stock_sells := sells } with
          | error e =>
            rw [hval] at h
            exact absurd h (by simp)
          | ok u =>
            rw [hval] at h
            injection h with h
            subst h
            unfold validate_open_positions at hval
            split at hval
            · rename_i hcond
              exact ⟨hcond, rfl⟩
            · exact absurd hval (by simp)
  · intro s sells buys buys2 hmp hlen hord hne
    unfold process_trades
    rw [hmp]
    simp only []
    rw [if_neg (not_not_intro hlen), hord]
    simp only []
    unfold validate_open_positions
    rw [if_neg (by simp [hne])]

theorem open_positions_c2_witness :
    (mapEq (calcOpenPositions sampleStatement.stock_buys) sampleStatement.open_positions = true
     ∧ sampleStatement.open_positions = sampleStatement.open_positions)
  ∧ (process_trades { sampleStatement with open_positions := [("A", 5)] } =
       .error "The calculated open positions don't match declared ones in the statement") :=
  ⟨open_positions_c2.1 sampleStatement sampleStatement rfl,
   open_positions_c2.2 { sampleStatement with open_positions := [("A", 5)] } [] [] []
     rfl rfl rfl rfl⟩

/-! ## Claim C5: a sell with no open lots is a fatal error naming the symbol -/

/-- C5: whenever the per-sell loop reaches an unmatched sell whose symbol
has no remaining open lots — its queue is absent, or the lots left in it
cannot cover the sell's quantity — the loop stops immediately with the error
that names the symbol; in particular a statement whose first sell is in that
situation makes the whole `process_trades` fail with that error, so no
matched statement is produced. -/
theorem no_open_positions_c5 :
    (∀ (m : BuyQueues) (sell : StockSell) (rest : List StockSell),
       sell.is_processed = false →
       (∀ b ∈ (lookupA m sell.symbol).getD [], 1 ≤ b.get_unsold) →
       sumUnsold ((lookupA m sell.symbol).getD []) < sell.quantity →
       processSells m (sell :: rest) = .error (noPositionsError sell.symbol))
  ∧ (∀ (s : BrokerStatement) (sell : StockSell) (rest : List StockSell),
       s.stock_sells = sell :: rest →
       sell.is_processed = false →
       (∀ b ∈ s.stock_buys, b.sold ≤ b.quantity) →
       totalUnsoldFor s.stock_buys sell.symbol < sell.quantity →
       process_trades s = .error (noPositionsError sell.symbol)) := by
  have hmain : ∀ (m : BuyQueues) (sell : StockSell) (rest : List StockSell),
      sell.is_processed = false →
      (∀ b ∈ (lookupA m sell.symbol).getD [], 1 ≤ b.get_unsold) →
      sumUnsold ((lookupA m sell.symbol).getD []) < sell.quantity →
      processSells m (sell :: rest) = .error (noPositionsError sell.symbol) := by
    intro m sell rest hp hwfq hless
    simp only [processSells]
    rw [if_neg (by simp [hp])]
    cases hlook : lookupA m sell.symbol with
    | none => rfl
    | some q =>
      rw [hlook] at hwfq hless
      simp only [Option.getD_some] at hwfq hless
      simp only []
      have herr := matchSell_exhausted sell.symbol sell.quantity q hwfq hless
      rw [herr]
  refine ⟨hmain, ?_⟩
  intro s sell rest hsells hp hwf hless
  have hq : processSells (partitionBuys s.stock_buys).2 (sell :: rest) =
      .error (noPositionsError sell.symbol) := by
    apply hmain _ sell rest hp
    · intro b hb
      apply partitionGo_wf s.stock_buys.reverse [] []
        (fun b2 h2 => hwf b2 (List.mem_reverse.mp h2))
        (by
          intro sym2 b2 h2
          simp [lookupA] at h2)
        sell.symbol b
      unfold partitionBuys at hb
      exact hb
    · have hg := partitionGo_unsold s.stock_buys.reverse [] [] sell.symbol
      unfold partitionBuys
      rw [totalUnsoldFor_reverse] at hg
      rw [hg]
      simp only [lookupA, sumUnsold, List.map_nil, List.sum_nil, Option.getD_none]
      omega
  have hmp : matchPhase s = .error (noPositionsError sell.symbol) := by
    unfold matchPhase
    simp only []
    rw [hsells, hq]
  unfold process_trades
  rw [hmp]

theorem no_open_positions_c5_witness :
    (processSells [] [sampleSell "C" 2] = .error (noPositionsError "C"))
  ∧ (process_trades { sampleStatement with stock_sells := [sampleSell "B" 1] } =
       .error (noPositionsError "B")) :=
  ⟨no_open_positions_c5.1 [] (sampleSell "C" 2) [] rfl (by simp [lookupA])
     (by simp [lookupA, sumUnsold, sampleSell]),
   no_open_positions_c5.2 { sampleStatement with stock_sells := [sampleSell "B" 1] }
     (sampleSell "B" 1) [] rfl rfl (by simp [sampleStatement])
     (by simp [totalUnsoldFor, sampleStatement, sampleSell])⟩

/-! ## Claim C1: FIFO matching with exact source accounting -/

/-- C1: every successfully matched sell consumes buy lots of its symbol
oldest first — its recorded sources are exactly what the spec's FIFO rule
produces on the oldest-first queue, each with the consumed quantity
`min(remaining, lot's unsold)`, the lot's price and the prorated commission
`lot.commission × consumed / lot.total_quantity` — the source quantities sum
exactly to the sell's quantity, the consumed lots form a prefix of the
(conclusion date, execution date)-ordered queue, and every sell processed by
a successful `process_trades` run has sources summing to its quantity. -/
theorem fifo_matching_c1 :
    (∀ (symbol : String) (remaining : ℕ) (queue : List StockBuy)
       (srcs : List StockSellSource) (closed queue2 : List StockBuy),
       matchSell symbol remaining queue = .ok (srcs, closed, queue2) →
       fifoSpec remaining queue.reverse = some srcs
       ∧ (srcs.map (fun src => src.quantity)).sum = remaining
       ∧ srcs.map sourceKey = (queue.reverse.map buyKey).take srcs.length
       ∧ (List.Pairwise tradeKeyLe (queue.reverse.map buyKey) →
          List.Pairwise tradeKeyLe (srcs.map sourceKey)))
  ∧ (∀ (s s2 : BrokerStatement), process_trades s = .ok s2 →
       List.Forall₂
         (fun sell sell2 =>
           sell.is_processed = false →
           sell2.quantity = sell.quantity
           ∧ (sell2.sources.map (fun src => src.quantity)).sum = sell2.quantity)
         s.stock_sells s2.stock_sells) := by
  constructor
  · intro symbol remaining queue srcs closed queue2 h
    obtain ⟨h1, h2, h4⟩ := matchSell_ok_master symbol remaining queue srcs closed queue2 h
    refine ⟨h1, h2, h4.2, ?_⟩
    intro hpair
    rw [h4.2]
    exact List.Pairwise.sublist (List.take_sublist _ _) hpair
  · intro s s2 h
    unfold process_trades at h
    cases hmp : matchPhase s with
    | error e =>
      rw [hmp] at h
      exact absurd h (by simp)
    | ok t =>
      obtain ⟨sells, buys⟩ := t
      rw [hmp] at h
      simp only [] at h
      by_cases hlen : buys.length ≠ s.stock_buys.length
      · rw [if_pos hlen] at h
        exact absurd h (by simp)
      · rw [if_neg hlen] at h
        cases hord : order_stock_buys buys with
        | error e =>
          rw [hord] at h
          exact absurd h (by simp)
        | ok buys2 =>
          rw [hord] at h
          simp only [] at h
          cases hval : validate_open_positions
              { s with stock_buys := buys2, stock_sells := sells } with
          | error e =>
            rw [hval] at h
            exact absurd h (by simp)
          | ok u =>
            rw [hval] at h
            injection h with h
            subst h
            unfold matchPhase at hmp
            simp only [] at hmp
            cases hps : processSells (partitionBuys s.stock_buys).2 s.stock_sells with
            | error e =>
              rw [hps] at hmp
              exact absurd hmp (by simp)
            | ok t2 =>
              obtain ⟨sells', m2, closed⟩ := t2
              rw [hps] at hmp
              simp only [Except.ok.injEq, Prod.mk.injEq] at hmp
              obtain ⟨hm1, hm2⟩ := hmp
              subst hm1
              exact processSells_forall2 s.stock_sells _ _ m2 closed hps

theorem fifo_matching_c1_witness :
    (fifoSpec 15 ([sampleBuy "AAPL" 10 2 4, sampleBuy "AAPL" 10 1 3].reverse) =
       some [mkSellSource (sampleBuy "AAPL" 10 1 3) 10,
             mkSellSource (sampleBuy "AAPL" 10 2 4) 5]
     ∧ (([mkSellSource (sampleBuy "AAPL" 10 1 3) 10,
          mkSellSource (sampleBuy "AAPL" 10 2 4) 5].map (fun src => src.quantity)).sum = 15)
     ∧ ([mkSellSource (sampleBuy "AAPL" 10 1 3) 10,
         mkSellSource (sampleBuy "AAPL" 10 2 4) 5].map sourceKey =
          ([sampleBuy "AAPL" 10 2 4, sampleBuy "AAPL" 10 1 3].reverse.map buyKey).take
            ([mkSellSource (sampleBuy "AAPL" 10 1 3) 10,
              mkSellSource (sampleBuy "AAPL" 10 2 4) 5].length))
     ∧ (List.Pairwise tradeKeyLe
          ([sampleBuy "AAPL" 10 2 4, sampleBuy "AAPL" 10 1 3].reverse.map buyKey) →
        List.Pairwise tradeKeyLe
          ([mkSellSource (sampleBuy "AAPL" 10 1 3) 10,
            mkSellSource (sampleBuy "AAPL" 10 2 4) 5].map sourceKey)))
  ∧ List.Forall₂
      (fun sell sell2 =>
        sell.is_processed = false →
        sell2.quantity = sell.quantity
        ∧ (sell2.sources.map (fun src => src.quantity)).sum = sell2.quantity)
      sampleStatement.stock_sells sampleStatement.stock_sells :=
  ⟨fifo_matching_c1.1 "AAPL" 15 [sampleBuy "AAPL" 10 2 4, sampleBuy "AAPL" 10 1 3]
     [mkSellSource (sampleBuy "AAPL" 10 1 3) 10, mkSellSource (sampleBuy "AAPL" 10 2 4) 5]
     [(sampleBuy "AAPL" 10 1 3).sell 10] [(sampleBuy "AAPL" 10 2 4).sell 5]
     (by simp [matchSell_eq, sampleBuy, sampleCash, StockBuy.get_unsold, StockBuy.sell,
       StockBuy.is_sold]),
   fifo_matching_c1.2 sampleStatement sampleStatement rfl⟩
